import Mathlib

/-!
Verification development for the perun index module (`perun/logic/index.py`).

The per-revision index file is modelled as a list of bytes (`List Nat`);
all operations of the module — the entry codec, the walker, the three
mutators and the auxiliary compressed index — are embedded as executable
Lean functions over that representation.

Byte-level helpers that the module imports from `perun.logic.store` and
`perun.utils.timestamps` are not among the shown sources; they are
modelled from the spec's wire-format description: 4-byte little-endian
integers, a NUL-terminated path, length-prefixed strings, and a 4-byte
timestamp.  The source keeps an entry's `time` as the string image of
that 4-byte timestamp under the `timestamp_to_str` / `str_to_timestamp`
bijection, and compares those fixed-width strings lexicographically,
which agrees with numeric comparison of the timestamp values; the model
therefore keeps the numeric value directly.  The content-addressed
object store consulted when reading version-1 files is modelled as an
explicit function parameter `stor` from a checksum to the profile
metadata it yields.
-/

namespace PerunIndex

set_option maxRecDepth 200000

instance {ε α : Type} [DecidableEq ε] [DecidableEq α] : DecidableEq (Except ε α) :=
  fun a b =>
  match a, b with
  | .error x, .error y =>
    if h : x = y then .isTrue (by rw [h]) else .isFalse (fun hh => h (Except.error.inj hh))
  | .ok x, .ok y =>
    if h : x = y then .isTrue (by rw [h]) else .isFalse (fun hh => h (Except.ok.inj hh))
  | .error _, .ok _ => .isFalse (fun hh => Except.noConfusion hh)
  | .ok _, .error _ => .isFalse (fun hh => Except.noConfusion hh)

/-- Little-endian 4-byte encoding of a natural number (used below 2^32). -/
def u32Bytes (n : Nat) : List Nat :=
  [n % 256, n / 256 % 256, n / 65536 % 256, n / 16777216 % 256]

/-- Model of `struct.pack("i", x)`: two's-complement little-endian 4-byte encoding. -/
def i32Bytes (x : Int) : List Nat :=
  u32Bytes (x % 4294967296).toNat

/-- Value of a little-endian byte list. -/
def bytesToNatLE (bs : List Nat) : Nat :=
  bs.foldr (fun b acc => b + 256 * acc) 0

/-- Split off exactly `k` bytes; `none` if the stream is too short. -/
def takeBytes : Nat → List Nat → Option (List Nat × List Nat)
  | 0, l => some ([], l)
  | _ + 1, [] => none
  | k + 1, b :: l =>
    match takeBytes k l with
    | none => none
    | some (xs, rest) => some (b :: xs, rest)

/-- Modelled from the spec: `store.read_int_from_handle`, a little-endian
4-byte unsigned integer read that fails on a truncated stream. -/
def readU32 (l : List Nat) : Option (Nat × List Nat) :=
  match takeBytes 4 l with
  | none => none
  | some (bs, rest) => some (bytesToNatLE bs, rest)

/-- Numeric value of one hex digit (junk for non-hex characters, which
`bytearray.fromhex` would reject; valid entries never contain them). -/
def hexVal (c : Char) : Nat :=
  if c.toNat ≤ 57 then c.toNat - 48
  else if c.toNat ≤ 70 then c.toNat - 55
  else c.toNat - 87

/-- Model of `bytearray.fromhex`: hex digits to bytes, two digits per byte. -/
def hexToBytes : List Char → List Nat
  | c1 :: c2 :: rest => (16 * hexVal c1 + hexVal c2) :: hexToBytes rest
  | _ => []

/-- Lowercase hex digit for a value below 16. -/
def hexDigitChar (n : Nat) : Char :=
  if n < 10 then Char.ofNat (48 + n) else Char.ofNat (87 + n)

/-- Model of `binascii.hexlify`: bytes to lowercase hex digits. -/
def bytesToHexChars : List Nat → List Char
  | [] => []
  | b :: rest => hexDigitChar (b / 16) :: hexDigitChar (b % 16) :: bytesToHexChars rest

/-- Model of `binascii.hexlify(...).decode("utf-8")`. -/
def bytesToHex (l : List Nat) : String := ⟨bytesToHexChars l⟩

/-- Bytes of a string, one byte per character; faithful to the source's
UTF-8 encoding for the ASCII strings that valid entries carry. -/
def strBytes (s : String) : List Nat := s.data.map Char.toNat

/-- Characters of a byte list, one character per byte. -/
def bytesToStr (l : List Nat) : String := ⟨l.map Char.ofNat⟩

/-- Modelled from the spec: `store.write_string_to_handle`, a
length-prefixed string write. -/
def writeStr (s : String) : List Nat := u32Bytes s.length ++ strBytes s

/-- Modelled from the spec: `store.read_string_from_handle`. -/
def readStr (l : List Nat) : Option (String × List Nat) :=
  match readU32 l with
  | none => none
  | some (n, l1) =>
    match takeBytes n l1 with
    | none => none
    | some (bs, rest) => some (bytesToStr bs, rest)

/-- Modelled from the spec: `store.write_list_to_handle`, a count followed
by length-prefixed strings. -/
def writeStrList (ss : List String) : List Nat :=
  u32Bytes ss.length ++ (ss.map writeStr).flatten

/-- Read `k` length-prefixed strings. -/
def readStrsAux : Nat → List Nat → Option (List String × List Nat)
  | 0, l => some ([], l)
  | k + 1, l =>
    match readStr l with
    | none => none
    | some (s, l1) =>
      match readStrsAux k l1 with
      | none => none
      | some (ss, rest) => some (s :: ss, rest)

/-- Modelled from the spec: `store.read_list_from_handle`. -/
def readStrList (l : List Nat) : Option (List String × List Nat) :=
  match readU32 l with
  | none => none
  | some (n, l1) => readStrsAux n l1

/-- The profile fields an extended entry extracts: `header.type`,
`header.cmd`, `header.workload`, `collector_info.name` and the
`postprocessors` names (spec, consumed interfaces). -/
structure ProfileMeta where
  type : String
  cmd : String
  workload : String
  collector : String
  postprocessors : List String
deriving DecidableEq

/-- One index entry.  `BasicIndexEntry` and `ExtendedIndexEntry` share the
same attribute dictionary (the basic constructor fills the extended
fields with its defaults), and equality in the source compares that
dictionary, so a single structure represents both generations. -/
structure IndexEntry where
  time : Nat
  checksum : String
  path : String
  offset : Int
  type : String
  cmd : String
  workload : String
  collector : String
  postprocessors : List String
deriving DecidableEq

/-- Model of `INDEX_MAGIC_PREFIX = b"pidx"` (named without the source's suffix). -/
def INDEX_MAGIC : List Nat := [112, 105, 100, 120]

def INDEX_VERSION : Nat := 2

def INDEX_ENTRIES_START_OFFSET : Nat := 12

def INDEX_NUMBER_OF_ENTRIES_OFFSET : Nat := 8

/-- Model of `BasicIndexEntry.write_to`: timestamp, raw checksum bytes,
NUL-terminated path. -/
def writeBasic (e : IndexEntry) : List Nat :=
  u32Bytes e.time ++ hexToBytes e.checksum.data ++ strBytes e.path ++ [0]

/-- Model of `ExtendedIndexEntry.write_to`: the basic record followed by four
length-prefixed strings and the postprocessor list. -/
def writeExtended (e : IndexEntry) : List Nat :=
  writeBasic e ++ writeStr e.type ++ writeStr e.cmd ++ writeStr e.workload
    ++ writeStr e.collector ++ writeStrList e.postprocessors

/-- Characters of a path up to the NUL terminator; fails at end of stream
like the source's byte-wise reader would. -/
def readPathChars : List Nat → Option (List Char × List Nat)
  | [] => none
  | b :: rest =>
    if b = 0 then some ([], rest)
    else
      match readPathChars rest with
      | none => none
      | some (cs, r) => some (Char.ofNat b :: cs, r)

/-- Model of `BasicIndexEntry.read_from` at position `pos`: the offset field is not
stored but reconstructed from the read position, and the extended fields
get the constructor's `"??"` / empty defaults. -/
def readBasicFrom (l : List Nat) (pos : Nat) : Option (IndexEntry × List Nat) :=
  match readU32 l with
  | none => none
  | some (t, l1) =>
    match takeBytes 20 l1 with
    | none => none
    | some (sha, l2) =>
      match readPathChars l2 with
      | none => none
      | some (cs, rest) =>
        some ({ time := t, checksum := bytesToHex sha, path := ⟨cs⟩,
                offset := (pos : Int), type := "??", cmd := "??",
                workload := "??", collector := "??",
                postprocessors := [] }, rest)

/-- Model of `ExtendedIndexEntry._read_from_same_index`: the basic prefix followed
by the four strings and the postprocessor list. -/
def readExtendedFrom (l : List Nat) (pos : Nat) : Option (IndexEntry × List Nat) :=
  match readBasicFrom l pos with
  | none => none
  | some (b, l1) =>
    match readStr l1 with
    | none => none
    | some (ty, l2) =>
      match readStr l2 with
      | none => none
      | some (c, l3) =>
        match readStr l3 with
        | none => none
        | some (w, l4) =>
          match readStr l4 with
          | none => none
          | some (col, l5) =>
            match readStrList l5 with
            | none => none
            | some (ps, rest) =>
              some ({ b with
                        type := ty, cmd := c, workload := w,
                        collector := col, postprocessors := ps }, rest)

/-- Model of `ExtendedIndexEntry.read_from`: dispatch on the file's version.  For a
version-1 file (`_read_from_older_index`) the basic record is read and
the extended fields are backfilled by loading the referenced profile from
the content store, modelled by `stor`.  (A version-0 file would make the
source fail at `IndexVersion(...)` construction; it is never walked
here.) -/
def readEntryFrom (stor : String → ProfileMeta) (v : Nat) (l : List Nat)
    (pos : Nat) : Option (IndexEntry × List Nat) :=
  if v < INDEX_VERSION then
    match readBasicFrom l pos with
    | none => none
    | some (b, rest) =>
      let p := stor b.checksum
      some ({ b with
                type := p.type, cmd := p.cmd, workload := p.workload,
                collector := p.collector, postprocessors := p.postprocessors }, rest)
  else readExtendedFrom l pos

/-- The exception raised by `walk_index`: both the bad-magic case and the
newer-version case raise `MalformedIndexFileException`, distinguished
only by their message. -/
inductive IndexErr where
  | malformedIndexFile (msg : String)
deriving DecidableEq

/-- Loop of `walk_index`.  The fuel argument counts the entries still
allowed (`number_of_objects - loaded_objects`); the source's byte
condition `tell() + 24 < last_position` equals `24 < l.length` for the
remaining bytes `l`.  A truncated record makes the byte-level readers
fail, modelled as `none`. -/
def walkLoop (stor : String → ProfileMeta) (v : Nat) :
    List Nat → Nat → Nat → Option (List IndexEntry)
  | _, _, 0 => some []
  | l, pos, k + 1 =>
    if 24 < l.length then
      match readEntryFrom stor v l pos with
      | none => none
      | some (e, rest) =>
        match walkLoop stor v rest (pos + (l.length - rest.length)) k with
        | none => none
        | some es => some (e :: es)
    else some []

/-- Message of the version branch of `walk_index`. -/
def versionErrMsg (v : Nat) : String :=
  "read index file is in format of different index version (read index file = "
    ++ toString v ++ ", supported = " ++ toString INDEX_VERSION ++ ")"

/-- Model of `walk_index`: magic check, version check, count read, then the decode
loop.  The result carries the decoded entries plus the mismatch-warning
flag; the `perun_log.error` emitted on a count mismatch is non-fatal
(modelled from the spec, the logging module not being among the
sources). -/
def walkIndex (stor : String → ProfileMeta) (file : List Nat) :
    Except IndexErr (List IndexEntry × Bool) :=
  match takeBytes 4 file with
  | none => .error (.malformedIndexFile ("read blob is not an index file"))
  | some (magic, r1) =>
    if magic = INDEX_MAGIC then
      match readU32 r1 with
      | none => .error (.malformedIndexFile ("truncated index header"))
      | some (v, r2) =>
        if INDEX_VERSION < v then
          .error (.malformedIndexFile (versionErrMsg v))
        else
          match readU32 r2 with
          | none => .error (.malformedIndexFile ("truncated index header"))
          | some (n, body) =>
            match walkLoop stor v body INDEX_ENTRIES_START_OFFSET n with
            | none => .error (.malformedIndexFile ("truncated index entry"))
            | some es => .ok (es, decide (es.length ≠ n))
    else .error (.malformedIndexFile ("read blob is not an index file"))

/-- In-place overwrite of bytes at `off`, as a `seek`/`write` pair does. -/
def setBytes (file : List Nat) (off : Nat) (bs : List Nat) : List Nat :=
  file.take off ++ bs ++ file.drop (off + bs.length)

/-- Unsigned read of the 4 bytes at `off`. -/
def readU32At (file : List Nat) (off : Nat) : Nat :=
  bytesToNatLE ((file.drop off).take 4)

/-- Model of `touch_index` / `initialize_index_in_handle`: magic, current version,
zero entries. -/
def freshIndex : List Nat := INDEX_MAGIC ++ i32Bytes (INDEX_VERSION : Int) ++ i32Bytes 0

/-- Model of `update_index_version`: rewrite the version field to the current
constant. -/
def updateIndexVersion (file : List Nat) : List Nat :=
  setBytes file 4 (i32Bytes (INDEX_VERSION : Int))

/-- Model of `modify_number_of_entries_in_index`. -/
def modifyEntryCount (file : List Nat) (f : Nat → Int) : List Nat :=
  setBytes file INDEX_NUMBER_OF_ENTRIES_OFFSET
    (i32Bytes (f (readU32At file INDEX_NUMBER_OF_ENTRIES_OFFSET)))

/-- Lexicographic comparison of character lists by code point — the
order Python's `<` on strings uses.  (Structurally recursive so that
concrete comparisons evaluate; Lean's own `String.lt` is the same
lexicographic code-point order.) -/
def charListLtB : List Char → List Char → Bool
  | _, [] => false
  | [], _ :: _ => true
  | a :: as, b :: bs =>
    if a.toNat < b.toNat then true
    else if b.toNat < a.toNat then false
    else charListLtB as bs

/-- Python's `<` on strings: lexicographic by code point. -/
def strLtB (a b : String) : Bool := charListLtB a.data b.data

/-- The insertion-point predicate of `write_entry_to_index`:
`entry.path > file_entry.path or (entry.path == file_entry.path and
entry.time >= file_entry.time)`. -/
def insertPredB (entry fileEntry : IndexEntry) : Bool :=
  strLtB fileEntry.path entry.path
    || (decide (entry.path = fileEntry.path) && decide (fileEntry.time ≤ entry.time))

/-- Mechanics of `write_entry_to_index` once the insertion offset is
known: bump the header count, buffer the tail from the offset, write the
record, write the tail back, then upgrade the version field. -/
def finishInsert (file : List Nat) (off : Nat) (e : IndexEntry) : List Nat :=
  updateIndexVersion
    ((modifyEntryCount file (fun x => (x : Int) + 1)).take off
      ++ writeExtended e
      ++ (modifyEntryCount file (fun x => (x : Int) + 1)).drop off)

/-- Model of `write_entry_to_index`.  With the `-1` offset sentinel the insertion
point is found by the first walked entry satisfying the predicate; an
exact `(path, time)` match returns early with the file untouched.  A
non-sentinel offset is used directly, with no lookup at all.  (The model
is used only with the sentinel or nonnegative offsets; other negative
offsets would make the source fail at `seek`.) -/
def writeEntryToIndex (stor : String → ProfileMeta) (file : List Nat)
    (e : IndexEntry) : Except IndexErr (List Nat) :=
  if e.offset = -1 then
    match walkIndex stor file with
    | .error err => .error err
    | .ok (entries, _) =>
      match entries.find? (fun x => insertPredB x e) with
      | some looked =>
        if looked.path = e.path ∧ looked.time = e.time then .ok file
        else .ok (finishInsert file looked.offset.toNat e)
      | none => .ok (finishInsert file file.length e)
  else .ok (finishInsert file e.offset.toNat e)

/-- Concatenated current-generation encodings of a list of entries. -/
def encAll (es : List IndexEntry) : List Nat := (es.map writeExtended).flatten

/-- Model of `write_list_of_entries`: truncate, reinitialize the header, set the
count to the list length, serialize every entry in the given order. -/
def writeListOfEntries (es : List IndexEntry) : List Nat :=
  INDEX_MAGIC ++ i32Bytes (INDEX_VERSION : Int) ++ i32Bytes (es.length : Int) ++ encAll es

/-- Modelled from the spec: `store.is_sha1`, true for a 40-character hex
string ("the key looks like a checksum"). -/
def isSha1 (s : String) : Bool :=
  s.length == 40 && s.data.all (fun c =>
    (48 ≤ c.toNat && c.toNat ≤ 57) || (97 ≤ c.toNat && c.toNat ≤ 102)
      || (65 ≤ c.toNat && c.toNat ≤ 70))

/-- The per-key lookup predicate of `remove_from_index`: checksum equality
for SHA1-shaped keys, path equality otherwise. -/
def keyMatches (k : String) (e : IndexEntry) : Bool :=
  if isSha1 k then e.checksum == k else e.path == k

/-- Ordered insertion used to model `list.sort(key=offset)`. -/
def insertByOffset (e : IndexEntry) : List IndexEntry → List IndexEntry
  | [] => [e]
  | x :: xs => if x.offset ≤ e.offset then x :: insertByOffset e xs else e :: x :: xs

/-- Model of `all_entries.sort(key=lambda e: e.offset)`.  The walker yields entries
at strictly increasing offsets, so on every reachable input this sort is
the identity and agrees with the source's stable sort. -/
def sortByOffset (l : List IndexEntry) : List IndexEntry :=
  l.foldr insertByOffset []

/-- First match of each key against the walked sequence, in key order;
keys that match nothing contribute nothing (reported "not found" in the
source). -/
def removedList (walked : List IndexEntry) (keys : List String) : List IndexEntry :=
  keys.filterMap (fun k => walked.find? (fun e => keyMatches k e))

/-- Model of `remove_from_index` on the opened file.  The file is walked once for
`all_entries`; each key is then looked up through a fresh walk of the
still-unmodified file (first match only).  The header count is rewritten
to `len(all_entries) - len(removed_entries)`, the kept entries are
re-encoded back-to-back from offset 12, and the file is truncated there.
The version field is not touched. -/
def removeFromIndex (stor : String → ProfileMeta) (file : List Nat)
    (keys : List String) : Except IndexErr (List Nat) :=
  if keys.length = 0 then .ok file
  else
    match walkIndex stor file with
    | .error err => .error err
    | .ok (walked, _) =>
      let allEntries := sortByOffset walked
      let removedEntries := removedList walked keys
      let kept := allEntries.filter (fun e => decide (e ∉ removedEntries))
      .ok (file.take INDEX_NUMBER_OF_ENTRIES_OFFSET
            ++ i32Bytes ((allEntries.length : Int) - (removedEntries.length : Int))
            ++ encAll kept)

/-- The two exception kinds `load_custom_index` catches: `ValueError`
(JSON decoding) and `zlib.error` (decompression). -/
inductive CustomIndexReadError where
  | valueError
  | zlibError
deriving DecidableEq

/-- Modelled from the spec: `load_custom_index`.  The chunk decompression
(`store.read_and_deflate_chunk`) composed with `json.loads` is abstracted
as the fallible `decode`; any failure yields the empty mapping
`emptyMapping` instead of propagating. -/
def loadCustomIndex {α : Type} (decode : List Nat → Except CustomIndexReadError α)
    (emptyMapping : α) (content : List Nat) : α :=
  match decode content with
  | .ok v => v
  | .error _ => emptyMapping

/-- The offset annotation the walker performs: each entry's `offset` field
becomes its byte position in the file. -/
def annotate : List IndexEntry → Nat → List IndexEntry
  | [], _ => []
  | e :: es, pos =>
    { e with offset := (pos : Int) } :: annotate es (pos + (writeExtended e).length)

/-- A version-2 file whose header declares `n` entries over the records of
`es` — used to state walker behaviour when the declared count and the
actual records disagree. -/
def mkIndexFileN (n : Nat) (es : List IndexEntry) : List Nat :=
  INDEX_MAGIC ++ i32Bytes (INDEX_VERSION : Int) ++ i32Bytes (n : Int) ++ encAll es

/-- A version-1 file: magic, version 1, declared count, then basic
(generation-1) records. -/
def mkV1File (n : Nat) (es : List IndexEntry) : List Nat :=
  INDEX_MAGIC ++ i32Bytes 1 ++ i32Bytes (n : Int) ++ (es.map writeBasic).flatten

/-- A string the byte-level codec round-trips: below 2^32 characters, all
ASCII (the source writes UTF-8 and reads byte-wise). -/
def validStr (s : String) : Prop :=
  s.length < 4294967296 ∧ ∀ c ∈ s.data, c.toNat < 128

/-- A lowercase hex digit, as `hexlify` produces. -/
def isLowerHexChar (c : Char) : Prop :=
  (48 ≤ c.toNat ∧ c.toNat ≤ 57) ∨ (97 ≤ c.toNat ∧ c.toNat ≤ 102)

/-- A well-formed entry: 32-bit timestamp, 40 lowercase hex digits of
checksum, NUL-free ASCII path, ASCII metadata strings. -/
def validEntry (e : IndexEntry) : Prop :=
  e.time < 4294967296 ∧
  e.checksum.data.length = 40 ∧ (∀ c ∈ e.checksum.data, isLowerHexChar c) ∧
  validStr e.path ∧ (∀ c ∈ e.path.data, c.toNat ≠ 0) ∧
  validStr e.type ∧ validStr e.cmd ∧ validStr e.workload ∧ validStr e.collector ∧
  e.postprocessors.length < 4294967296 ∧ ∀ s ∈ e.postprocessors, validStr s

instance (s : String) : Decidable (validStr s) := by
  unfold validStr; infer_instance

instance (c : Char) : Decidable (isLowerHexChar c) := by
  unfold isLowerHexChar; infer_instance

instance (e : IndexEntry) : Decidable (validEntry e) := by
  unfold validEntry; infer_instance

/-- The `(path, time)` order of the insertion comparator: path-major,
then time ascending. -/
def pathTimeLt (a b : IndexEntry) : Prop :=
  strLtB a.path b.path = true ∨ (a.path = b.path ∧ a.time < b.time)

instance (a b : IndexEntry) : Decidable (pathTimeLt a b) := by
  unfold pathTimeLt; infer_instance

/-- Abstract effect of one sentinel-offset insert on the record list: walk
to the first entry at or after the new `(path, time)`; an exact match
leaves the list unchanged, otherwise the entry is inserted there (or
appended when every record is strictly smaller). -/
def insertSpec (e : IndexEntry) : List IndexEntry → List IndexEntry
  | [] => [e]
  | x :: xs =>
    if insertPredB x e then
      (if x.path = e.path ∧ x.time = e.time then x :: xs else e :: x :: xs)
    else x :: insertSpec e xs

/-- Sequencing of `write_entry_to_index` calls on one file. -/
def applyInserts (stor : String → ProfileMeta) (file : List Nat) :
    List IndexEntry → Except IndexErr (List Nat)
  | [] => .ok file
  | e :: es =>
    match writeEntryToIndex stor file e with
    | .error err => .error err
    | .ok f1 => applyInserts stor f1 es

/-- A fixed content store used for concrete evaluations. -/
def storEx : String → ProfileMeta :=
  fun _ => ⟨"time", "cmd0", "wl", "col", []⟩

/-! ### Byte-level round-trip lemmas -/

theorem takeBytes_exact (xs ys : List Nat) :
    takeBytes xs.length (xs ++ ys) = some (xs, ys) := by
  induction xs with
  | nil => rfl
  | cons b xs ih => simp [takeBytes, ih]

theorem u32Bytes_length (n : Nat) : (u32Bytes n).length = 4 := rfl

theorem bytesToNatLE_u32Bytes (n : Nat) (h : n < 4294967296) :
    bytesToNatLE (u32Bytes n) = n := by
  simp only [u32Bytes, bytesToNatLE, List.foldr]
  omega

theorem readU32_u32Bytes (n : Nat) (rest : List Nat) (h : n < 4294967296) :
    readU32 (u32Bytes n ++ rest) = some (n, rest) := by
  have ht : takeBytes 4 (u32Bytes n ++ rest) = some (u32Bytes n, rest) :=
    takeBytes_exact (u32Bytes n) rest
  simp [readU32, ht, bytesToNatLE_u32Bytes n h]

theorem i32Bytes_natCast (n : Nat) (h : n < 4294967296) :
    i32Bytes (n : Int) = u32Bytes n := by
  unfold i32Bytes
  congr 1
  omega

theorem string_eta (s : String) : String.mk s.data = s := rfl

theorem bytesToStr_strBytes (s : String) : bytesToStr (strBytes s) = s := by
  rcases s with ⟨cs⟩
  unfold bytesToStr strBytes
  rw [List.map_map]
  congr 1
  induction cs with
  | nil => rfl
  | cons c cs ih => simp only [List.map_cons, Function.comp_apply,
      Char.ofNat_toNat, List.cons.injEq, true_and]; exact ih

theorem strBytes_length (s : String) : (strBytes s).length = s.length := by
  rw [strBytes, List.length_map]
  rfl

theorem hexVal_lt (c : Char) (h : isLowerHexChar c) : hexVal c < 16 := by
  rcases h with ⟨h1, h2⟩ | ⟨h1, h2⟩ <;> unfold hexVal <;> split_ifs <;> omega

theorem hexDigitChar_hexVal (c : Char) (h : isLowerHexChar c) :
    hexDigitChar (hexVal c) = c := by
  rcases h with ⟨h1, h2⟩ | ⟨h1, h2⟩
  · have hv : hexVal c = c.toNat - 48 := by unfold hexVal; rw [if_pos (by omega)]
    rw [hv]
    unfold hexDigitChar
    rw [if_pos (by omega), show 48 + (c.toNat - 48) = c.toNat by omega]
    exact Char.ofNat_toNat c
  · have hv : hexVal c = c.toNat - 87 := by
      unfold hexVal; rw [if_neg (by omega), if_neg (by omega)]
    rw [hv]
    unfold hexDigitChar
    rw [if_neg (by omega), show 87 + (c.toNat - 87) = c.toNat by omega]
    exact Char.ofNat_toNat c

theorem bytesToHexChars_hexToBytes (cs : List Char)
    (h : ∀ c ∈ cs, isLowerHexChar c) (he : cs.length % 2 = 0) :
    bytesToHexChars (hexToBytes cs) = cs := by
  match cs with
  | [] => rfl
  | [c] => simp at he
  | c1 :: c2 :: rest =>
    have h1 : isLowerHexChar c1 := h c1 (by simp)
    have h2 : isLowerHexChar c2 := h c2 (by simp)
    have hv2 : hexVal c2 < 16 := hexVal_lt c2 h2
    have hd : (16 * hexVal c1 + hexVal c2) / 16 = hexVal c1 := by omega
    have hm : (16 * hexVal c1 + hexVal c2) % 16 = hexVal c2 := by omega
    simp only [hexToBytes, bytesToHexChars, hd, hm,
      hexDigitChar_hexVal c1 h1, hexDigitChar_hexVal c2 h2, List.cons.injEq,
      true_and]
    exact bytesToHexChars_hexToBytes rest (fun c hc => h c (by simp [hc]))
      (by simp only [List.length_cons] at he; omega)

theorem hexToBytes_length (cs : List Char) :
    (hexToBytes cs).length = cs.length / 2 := by
  match cs with
  | [] => rfl
  | [c] => simp [hexToBytes]
  | c1 :: c2 :: rest =>
    simp only [hexToBytes, List.length_cons]
    rw [hexToBytes_length rest]
    omega

theorem readPathChars_roundtrip (cs : List Char) (rest : List Nat)
    (h0 : ∀ c ∈ cs, c.toNat ≠ 0) :
    readPathChars (cs.map Char.toNat ++ 0 :: rest) = some (cs, rest) := by
  induction cs with
  | nil => rfl
  | cons c cs ih =>
    have hc : c.toNat ≠ 0 := h0 c (by simp)
    simp only [List.map_cons, List.cons_append, readPathChars, if_neg hc,
      List.append_eq, ih (fun x hx => h0 x (by simp [hx])), Char.ofNat_toNat]

theorem readStr_writeStr (s : String) (rest : List Nat) (h : validStr s) :
    readStr (writeStr s ++ rest) = some (s, rest) := by
  obtain ⟨hlen, _⟩ := h
  have htb : takeBytes s.length (strBytes s ++ rest) = some (strBytes s, rest) := by
    have := takeBytes_exact (strBytes s) rest
    rwa [strBytes_length] at this
  simp only [writeStr, List.append_assoc, readStr,
    readU32_u32Bytes s.length (strBytes s ++ rest) hlen, htb, bytesToStr_strBytes]

theorem readStrsAux_roundtrip (ss : List String) (rest : List Nat)
    (h : ∀ s ∈ ss, validStr s) :
    readStrsAux ss.length ((ss.map writeStr).flatten ++ rest) = some (ss, rest) := by
  induction ss with
  | nil => rfl
  | cons s ss ih =>
    simp only [List.map_cons, List.flatten_cons, List.length_cons,
      List.append_assoc, readStrsAux, readStr_writeStr s _ (h s (by simp)),
      ih (fun x hx => h x (by simp [hx]))]

theorem readStrList_writeStrList (ss : List String) (rest : List Nat)
    (h : ∀ s ∈ ss, validStr s) (hl : ss.length < 4294967296) :
    readStrList (writeStrList ss ++ rest) = some (ss, rest) := by
  simp only [writeStrList, List.append_assoc, readStrList,
    readU32_u32Bytes ss.length _ hl, readStrsAux_roundtrip ss rest h]

/-- Decode-in-context for the basic codec: reading the encoding of a valid
entry reproduces its stored fields, the basic defaults, and the read
position as offset. -/
theorem readBasicFrom_writeBasic (e : IndexEntry) (rest : List Nat)
    (pos : Nat) (h : validEntry e) :
    readBasicFrom (writeBasic e ++ rest) pos =
      some ({ time := e.time, checksum := e.checksum, path := e.path,
              offset := (pos : Int), type := "??", cmd := "??",
              workload := "??", collector := "??",
              postprocessors := [] }, rest) := by
  obtain ⟨ht, hck, hhex, ⟨_, hpa⟩, hp0, _⟩ := h
  have htk : takeBytes 20 (hexToBytes e.checksum.data ++ (strBytes e.path ++ ([0] ++ rest)))
      = some (hexToBytes e.checksum.data, strBytes e.path ++ ([0] ++ rest)) := by
    have := takeBytes_exact (hexToBytes e.checksum.data) (strBytes e.path ++ ([0] ++ rest))
    rwa [hexToBytes_length, hck] at this
  have hrp : readPathChars (strBytes e.path ++ ([0] ++ rest)) = some (e.path.data, rest) := by
    have := readPathChars_roundtrip e.path.data rest hp0
    simpa [strBytes] using this
  have hhexrt : bytesToHex (hexToBytes e.checksum.data) = e.checksum := by
    rcases he : e.checksum with ⟨cs⟩
    rw [he] at hck hhex
    simp only [bytesToHex]
    congr 1
    exact bytesToHexChars_hexToBytes cs hhex (by simp [hck])
  simp only [writeBasic, List.append_assoc, readBasicFrom,
    readU32_u32Bytes e.time _ ht, htk, hrp, hhexrt, string_eta]

/-- Decode-in-context for the extended codec: full round-trip up to the
positional offset field. -/
theorem readExtendedFrom_writeExtended (e : IndexEntry) (rest : List Nat)
    (pos : Nat) (h : validEntry e) :
    readExtendedFrom (writeExtended e ++ rest) pos =
      some ({ e with offset := (pos : Int) }, rest) := by
  obtain ⟨ht, hck, hhex, hpath, hp0, hty, hcmd, hwl, hcol, hpl, hpp⟩ := h
  simp only [writeExtended, List.append_assoc, readExtendedFrom,
    readBasicFrom_writeBasic e _ pos ⟨ht, hck, hhex, hpath, hp0, hty, hcmd, hwl, hcol, hpl, hpp⟩,
    readStr_writeStr e.type _ hty, readStr_writeStr e.cmd _ hcmd,
    readStr_writeStr e.workload _ hwl, readStr_writeStr e.collector _ hcol,
    readStrList_writeStrList e.postprocessors rest hpp hpl]

/-! ### Walker characterization on well-formed files -/

theorem writeExtended_length_gt (e : IndexEntry) (h : validEntry e) :
    24 < (writeExtended e).length := by
  obtain ⟨-, hck, -⟩ := h
  have h20 : (hexToBytes e.checksum.data).length = 20 := by
    rw [hexToBytes_length, hck]
  simp only [writeExtended, writeBasic, writeStr, writeStrList,
    List.length_append, u32Bytes_length, List.length_cons, List.length_nil,
    h20]
  omega

theorem encAll_cons (e : IndexEntry) (es : List IndexEntry) :
    encAll (e :: es) = writeExtended e ++ encAll es := by
  simp [encAll]

theorem encAll_append (xs ys : List IndexEntry) :
    encAll (xs ++ ys) = encAll xs ++ encAll ys := by
  simp [encAll]

theorem annotate_length (es : List IndexEntry) (pos : Nat) :
    (annotate es pos).length = es.length := by
  induction es generalizing pos with
  | nil => rfl
  | cons e es ih => simp [annotate, ih]

theorem walkLoop_encAll (stor : String → ProfileMeta) (es : List IndexEntry)
    (k pos : Nat) (h : ∀ e ∈ es, validEntry e) :
    walkLoop stor INDEX_VERSION (encAll es) pos k = some (annotate (es.take k) pos) := by
  induction es generalizing k pos with
  | nil =>
    cases k with
    | zero => rfl
    | succ k => simp [walkLoop, encAll, annotate]
  | cons e es ih =>
    cases k with
    | zero => rfl
    | succ k =>
      have hv : validEntry e := h e (by simp)
      have hlt : 24 < (writeExtended e).length := writeExtended_length_gt e hv
      rw [encAll_cons]
      have hlen : 24 < (writeExtended e ++ encAll es).length := by
        rw [List.length_append]; omega
      have hread : readEntryFrom stor INDEX_VERSION (writeExtended e ++ encAll es) pos
          = some ({ e with offset := (pos : Int) }, encAll es) := by
        unfold readEntryFrom
        rw [if_neg (by simp [INDEX_VERSION])]
        exact readExtendedFrom_writeExtended e (encAll es) pos hv
      have hsub : (writeExtended e ++ encAll es).length - (encAll es).length
          = (writeExtended e).length := by
        rw [List.length_append]; omega
      simp only [walkLoop, if_pos hlen, hread, hsub,
        ih k (pos + (writeExtended e).length) (fun x hx => h x (by simp [hx])),
        List.take_succ_cons, annotate]

theorem walkIndex_mkIndexFileN (stor : String → ProfileMeta) (n : Nat)
    (es : List IndexEntry) (hv : ∀ e ∈ es, validEntry e)
    (hn : n < 4294967296) :
    walkIndex stor (mkIndexFileN n es) =
      .ok (annotate (es.take n) INDEX_ENTRIES_START_OFFSET,
           decide ((es.take n).length ≠ n)) := by
  have h2 : i32Bytes (INDEX_VERSION : Int) = u32Bytes 2 :=
    i32Bytes_natCast 2 (by omega)
  have hnc : i32Bytes (n : Int) = u32Bytes n := i32Bytes_natCast n hn
  have hmagic : takeBytes 4 (INDEX_MAGIC ++ (u32Bytes 2 ++ (u32Bytes n ++ encAll es)))
      = some (INDEX_MAGIC, u32Bytes 2 ++ (u32Bytes n ++ encAll es)) :=
    takeBytes_exact INDEX_MAGIC _
  have hver : readU32 (u32Bytes 2 ++ (u32Bytes n ++ encAll es))
      = some (2, u32Bytes n ++ encAll es) := readU32_u32Bytes 2 _ (by omega)
  have hcnt : readU32 (u32Bytes n ++ encAll es) = some (n, encAll es) :=
    readU32_u32Bytes n _ hn
  have hloop : walkLoop stor 2 (encAll es) INDEX_ENTRIES_START_OFFSET n
      = some (annotate (es.take n) INDEX_ENTRIES_START_OFFSET) :=
    walkLoop_encAll stor es n INDEX_ENTRIES_START_OFFSET hv
  have hnver : ¬ (INDEX_VERSION < 2) := by decide
  simp only [mkIndexFileN, List.append_assoc, h2, hnc, walkIndex, hmagic,
    eq_self_iff_true, if_true, hver, if_neg hnver, hcnt, hloop,
    annotate_length]

/-- Walking a file produced by `write_list_of_entries` yields exactly its
entries (offset-annotated) and no mismatch warning. -/
theorem walkIndex_writeListOfEntries (stor : String → ProfileMeta)
    (es : List IndexEntry) (hv : ∀ e ∈ es, validEntry e)
    (hl : es.length < 4294967296) :
    walkIndex stor (writeListOfEntries es) =
      .ok (annotate es INDEX_ENTRIES_START_OFFSET, false) := by
  have h : writeListOfEntries es = mkIndexFileN es.length es := rfl
  rw [h, walkIndex_mkIndexFileN stor es.length es hv hl, List.take_length]
  simp

/-! ### Header surgery on well-formed files -/

/-- A version-2 file with an arbitrary count field over the records of
`es`; intermediate shape during a mutator's header/body surgery. -/
def mkFileC (c : Int) (es : List IndexEntry) : List Nat :=
  INDEX_MAGIC ++ i32Bytes (INDEX_VERSION : Int) ++ i32Bytes c ++ encAll es

theorem writeListOfEntries_eq_mkFileC (es : List IndexEntry) :
    writeListOfEntries es = mkFileC (es.length : Int) es := rfl

theorem i32Bytes_length (x : Int) : (i32Bytes x).length = 4 := rfl

theorem INDEX_MAGIC_length : INDEX_MAGIC.length = 4 := rfl

theorem header_length (c : Int) :
    (INDEX_MAGIC ++ i32Bytes (INDEX_VERSION : Int) ++ i32Bytes c).length = 12 := by
  simp [List.length_append, i32Bytes_length, INDEX_MAGIC_length]

theorem writeListOfEntries_length (es : List IndexEntry) :
    (writeListOfEntries es).length = 12 + (encAll es).length := by
  have h := header_length ((es.length : Nat) : Int)
  simp only [writeListOfEntries, List.length_append] at h ⊢
  omega

theorem mkFileC_take (c : Int) (pre post : List IndexEntry) :
    (mkFileC c (pre ++ post)).take (12 + (encAll pre).length)
      = INDEX_MAGIC ++ i32Bytes (INDEX_VERSION : Int) ++ i32Bytes c ++ encAll pre := by
  have h : (INDEX_MAGIC ++ i32Bytes (INDEX_VERSION : Int) ++ i32Bytes c ++ encAll pre).length
      = 12 + (encAll pre).length := by
    have := header_length c
    simp only [List.length_append] at this ⊢
    omega
  have heq : mkFileC c (pre ++ post)
      = (INDEX_MAGIC ++ i32Bytes (INDEX_VERSION : Int) ++ i32Bytes c ++ encAll pre)
          ++ encAll post := by
    simp [mkFileC, encAll_append, List.append_assoc]
  rw [heq, List.take_left' h]

theorem mkFileC_drop (c : Int) (pre post : List IndexEntry) :
    (mkFileC c (pre ++ post)).drop (12 + (encAll pre).length) = encAll post := by
  have h : (INDEX_MAGIC ++ i32Bytes (INDEX_VERSION : Int) ++ i32Bytes c ++ encAll pre).length
      = 12 + (encAll pre).length := by
    have := header_length c
    simp only [List.length_append] at this ⊢
    omega
  have heq : mkFileC c (pre ++ post)
      = (INDEX_MAGIC ++ i32Bytes (INDEX_VERSION : Int) ++ i32Bytes c ++ encAll pre)
          ++ encAll post := by
    simp [mkFileC, encAll_append, List.append_assoc]
  rw [heq, List.drop_left' h]

theorem readU32At_mkFileC (n : Nat) (es : List IndexEntry) (h : n < 4294967296) :
    readU32At (mkFileC (n : Int) es) 8 = n := by
  have h8 : (INDEX_MAGIC ++ i32Bytes (INDEX_VERSION : Int)).length = 8 := by
    simp [List.length_append, i32Bytes_length, INDEX_MAGIC_length]
  have hdrop : (mkFileC (n : Int) es).drop 8 = i32Bytes (n : Int) ++ encAll es := by
    have heq : mkFileC (n : Int) es
        = (INDEX_MAGIC ++ i32Bytes (INDEX_VERSION : Int))
            ++ (i32Bytes (n : Int) ++ encAll es) := by
      simp [mkFileC, List.append_assoc]
    rw [heq, List.drop_left' h8]
  unfold readU32At
  rw [hdrop, List.take_left' (i32Bytes_length _), i32Bytes_natCast n h,
    bytesToNatLE_u32Bytes n h]

theorem modifyEntryCount_mkFileC (n : Nat) (es : List IndexEntry) (f : Nat → Int)
    (h : n < 4294967296) :
    modifyEntryCount (mkFileC (n : Int) es) f = mkFileC (f n) es := by
  have h8 : (INDEX_MAGIC ++ i32Bytes (INDEX_VERSION : Int)).length = 8 := by
    simp [List.length_append, i32Bytes_length, INDEX_MAGIC_length]
  have htake : (mkFileC (n : Int) es).take 8 = INDEX_MAGIC ++ i32Bytes (INDEX_VERSION : Int) := by
    have heq : mkFileC (n : Int) es
        = (INDEX_MAGIC ++ i32Bytes (INDEX_VERSION : Int))
            ++ (i32Bytes (n : Int) ++ encAll es) := by
      simp [mkFileC, List.append_assoc]
    rw [heq, List.take_left' h8]
  have hdrop : (mkFileC (n : Int) es).drop 12 = encAll es := by
    have heq : mkFileC (n : Int) es
        = (INDEX_MAGIC ++ i32Bytes (INDEX_VERSION : Int) ++ i32Bytes (n : Int))
            ++ encAll es := by
      simp [mkFileC, List.append_assoc]
    rw [heq, List.drop_left' (header_length _)]
  unfold modifyEntryCount setBytes INDEX_NUMBER_OF_ENTRIES_OFFSET
  rw [readU32At_mkFileC n es h, i32Bytes_length, htake]
  rw [show (8 + 4 : Nat) = 12 from rfl, hdrop]
  simp [mkFileC, List.append_assoc]

theorem updateIndexVersion_mkFileC (c : Int) (es : List IndexEntry) :
    updateIndexVersion (mkFileC c es) = mkFileC c es := by
  have htake : (mkFileC c es).take 4 = INDEX_MAGIC := by
    have heq : mkFileC c es
        = INDEX_MAGIC ++ (i32Bytes (INDEX_VERSION : Int) ++ (i32Bytes c ++ encAll es)) := by
      simp [mkFileC, List.append_assoc]
    rw [heq, List.take_left' INDEX_MAGIC_length]
  have h8 : (INDEX_MAGIC ++ i32Bytes (INDEX_VERSION : Int)).length = 8 := by
    simp [List.length_append, i32Bytes_length, INDEX_MAGIC_length]
  have hdrop : (mkFileC c es).drop 8 = i32Bytes c ++ encAll es := by
    have heq : mkFileC c es
        = (INDEX_MAGIC ++ i32Bytes (INDEX_VERSION : Int)) ++ (i32Bytes c ++ encAll es) := by
      simp [mkFileC, List.append_assoc]
    rw [heq, List.drop_left' h8]
  unfold updateIndexVersion setBytes
  rw [i32Bytes_length, show (4 + 4 : Nat) = 8 from rfl, htake, hdrop]
  simp [mkFileC, List.append_assoc]

/-- The splice step of `write_entry_to_index` at the boundary between
`pre` and `post`: header count is bumped, the record lands between the
encodings of `pre` and `post`, and the version rewrite is the identity on
a version-2 file. -/
theorem finishInsert_writeList (cur pre post : List IndexEntry) (e : IndexEntry)
    (hcur : cur = pre ++ post) (hl : cur.length < 4294967296) :
    finishInsert (writeListOfEntries cur) (12 + (encAll pre).length) e
      = mkFileC ((cur.length : Int) + 1) (pre ++ e :: post) := by
  subst hcur
  unfold finishInsert
  rw [writeListOfEntries_eq_mkFileC,
    modifyEntryCount_mkFileC (pre ++ post).length (pre ++ post) _ hl,
    mkFileC_take, mkFileC_drop]
  rw [show mkFileC (((pre ++ post).length : Int) + 1) (pre ++ e :: post)
      = updateIndexVersion (mkFileC (((pre ++ post).length : Int) + 1) (pre ++ e :: post)) from
    (updateIndexVersion_mkFileC _ _).symm]
  congr 1
  simp [mkFileC, encAll_append, encAll_cons, List.append_assoc]

/-! ### The insertion point found by the walker-driven lookup -/

theorem insertSpec_cases (e : IndexEntry) (cur : List IndexEntry) (pos : Nat) :
    ((annotate cur pos).find? (fun x => insertPredB x e) = none
      ∧ insertSpec e cur = cur ++ [e])
    ∨ (∃ pre f post, cur = pre ++ f :: post
        ∧ (annotate cur pos).find? (fun x => insertPredB x e)
            = some { f with offset := ((pos + (encAll pre).length : Nat) : Int) }
        ∧ ((f.path = e.path ∧ f.time = e.time ∧ insertSpec e cur = cur)
           ∨ (¬(f.path = e.path ∧ f.time = e.time)
              ∧ insertSpec e cur = pre ++ e :: f :: post))) := by
  induction cur generalizing pos with
  | nil => exact Or.inl ⟨rfl, rfl⟩
  | cons x xs ih =>
    by_cases hp : insertPredB x e
    · right
      refine ⟨[], x, xs, rfl, ?_, ?_⟩
      · rw [annotate]
        have hpu : insertPredB { x with offset := ((pos : Nat) : Int) } e = true := hp
        rw [List.find?_cons_of_pos (p := fun y => insertPredB y e) _ hpu]
        simp [encAll]
      · by_cases hex : x.path = e.path ∧ x.time = e.time
        · exact Or.inl ⟨hex.1, hex.2, by simp [insertSpec, hp, hex]⟩
        · exact Or.inr ⟨hex, by simp [insertSpec, hp, hex]⟩
    · have hp' : ¬ (fun y => insertPredB y e) { x with offset := ((pos : Nat) : Int) } = true := by
        simp only [Bool.not_eq_true]
        simpa using hp
      rcases ih (pos + (writeExtended x).length) with ⟨hf, hs⟩ | ⟨pre, f, post, hcur, hf, hrest⟩
      · refine Or.inl ⟨?_, ?_⟩
        · rw [annotate, List.find?_cons_of_neg (p := fun y => insertPredB y e) _ hp', hf]
        · simp [insertSpec, hp, hs]
      · right
        refine ⟨x :: pre, f, post, by rw [hcur]; rfl, ?_, ?_⟩
        · rw [annotate, List.find?_cons_of_neg (p := fun y => insertPredB y e) _ hp', hf]
          have harith : pos + (writeExtended x).length + (encAll pre).length
              = pos + (encAll (x :: pre)).length := by
            rw [encAll_cons, List.length_append]
            omega
          rw [harith]
        · rcases hrest with ⟨h1, h2, h3⟩ | ⟨h1, h2⟩
          · exact Or.inl ⟨h1, h2, by simp [insertSpec, hp, h3]⟩
          · exact Or.inr ⟨h1, by simp [insertSpec, hp, h2]⟩

/-- Characterization of a sentinel-offset insert on a well-formed
version-2 file: the file becomes the full rewrite of `insertSpec e cur`
(which is `cur` itself when an exact `(path, time)` duplicate is the
first entry the lookup finds). -/
theorem writeEntryToIndex_spec (stor : String → ProfileMeta)
    (cur : List IndexEntry) (e : IndexEntry)
    (hv : ∀ x ∈ cur, validEntry x) (hl : cur.length < 4294967296)
    (hoff : e.offset = -1) :
    writeEntryToIndex stor (writeListOfEntries cur) e
      = .ok (writeListOfEntries (insertSpec e cur)) := by
  have hwalk := walkIndex_writeListOfEntries stor cur hv hl
  rcases insertSpec_cases e cur INDEX_ENTRIES_START_OFFSET
    with ⟨hf, hs⟩ | ⟨pre, f, post, hcur, hf, hrest⟩
  · have hflen : (writeListOfEntries cur).length = 12 + (encAll cur).length :=
      writeListOfEntries_length cur
    have hfi : finishInsert (writeListOfEntries cur) (12 + (encAll cur).length) e
        = mkFileC ((cur.length : Int) + 1) (cur ++ [e]) :=
      finishInsert_writeList cur cur [] e (by simp) hl
    simp only [writeEntryToIndex, if_pos hoff, hwalk, hf, hflen, hfi, hs]
    rw [writeListOfEntries_eq_mkFileC]
    have : (((cur ++ [e]).length : Nat) : Int) = (cur.length : Int) + 1 := by
      simp [List.length_append]
    rw [this]
  · rcases hrest with ⟨h1, h2, h3⟩ | ⟨h1, h2⟩
    · simp only [writeEntryToIndex, if_pos hoff, hwalk, hf]
      rw [if_pos (show ({ f with offset := ((INDEX_ENTRIES_START_OFFSET
            + (encAll pre).length : Nat) : Int) } : IndexEntry).path = e.path
          ∧ ({ f with offset := ((INDEX_ENTRIES_START_OFFSET
            + (encAll pre).length : Nat) : Int) } : IndexEntry).time = e.time
        from ⟨h1, h2⟩), h3]
    · simp only [writeEntryToIndex, if_pos hoff, hwalk, hf]
      rw [if_neg (show ¬ (({ f with offset := ((INDEX_ENTRIES_START_OFFSET
            + (encAll pre).length : Nat) : Int) } : IndexEntry).path = e.path
          ∧ ({ f with offset := ((INDEX_ENTRIES_START_OFFSET
            + (encAll pre).length : Nat) : Int) } : IndexEntry).time = e.time)
        from h1)]
      have htoNat : (((INDEX_ENTRIES_START_OFFSET + (encAll pre).length : Nat) : Int)).toNat
          = 12 + (encAll pre).length := by
        unfold INDEX_ENTRIES_START_OFFSET
        omega
      rw [htoNat, finishInsert_writeList cur pre (f :: post) e hcur hl, h2,
        writeListOfEntries_eq_mkFileC]
      have : (((pre ++ e :: f :: post).length : Nat) : Int) = (cur.length : Int) + 1 := by
        subst hcur
        simp [List.length_append]
        omega
      rw [this]

/-! ### Ordering properties of the insertion comparator -/

theorem charListLtB_irrefl (l : List Char) : charListLtB l l = false := by
  induction l with
  | nil => rfl
  | cons a as ih => simp [charListLtB, ih]

theorem charListLtB_trans (a : List Char) : ∀ (b c : List Char),
    charListLtB a b = true → charListLtB b c = true → charListLtB a c = true := by
  induction a with
  | nil =>
    intro b c h1 h2
    cases b with
    | nil => simp [charListLtB] at h1
    | cons b0 bs =>
      cases c with
      | nil => simp [charListLtB] at h2
      | cons c0 cs => rfl
  | cons a0 as ih =>
    intro b c h1 h2
    cases b with
    | nil => simp [charListLtB] at h1
    | cons b0 bs =>
      cases c with
      | nil => simp [charListLtB] at h2
      | cons c0 cs =>
        simp only [charListLtB] at h1 h2 ⊢
        split_ifs at h1 h2 ⊢ <;>
          first
            | rfl
            | omega
            | (exact ih bs cs h1 h2)

theorem charListLtB_eq_of_not (a : List Char) : ∀ (b : List Char),
    charListLtB a b = false → charListLtB b a = false → a = b := by
  induction a with
  | nil =>
    intro b h1 _
    cases b with
    | nil => rfl
    | cons b0 bs => simp [charListLtB] at h1
  | cons a0 as ih =>
    intro b h1 h2
    cases b with
    | nil => simp [charListLtB] at h2
    | cons b0 bs =>
      simp only [charListLtB] at h1 h2
      by_cases hc1 : a0.toNat < b0.toNat
      · rw [if_pos hc1] at h1
        cases h1
      · by_cases hc2 : b0.toNat < a0.toNat
        · rw [if_pos hc2] at h2
          cases h2
        · rw [if_neg hc1, if_neg hc2] at h1
          rw [if_neg hc2, if_neg hc1] at h2
          have heq : a0 = b0 := by
            have htn : a0.toNat = b0.toNat := by omega
            have := congrArg Char.ofNat htn
            rwa [Char.ofNat_toNat, Char.ofNat_toNat] at this
          rw [heq, ih bs h1 h2]

theorem strLtB_trans {a b c : String} (h1 : strLtB a b = true)
    (h2 : strLtB b c = true) : strLtB a c = true :=
  charListLtB_trans a.data b.data c.data h1 h2

theorem strLtB_irrefl (s : String) : strLtB s s = false :=
  charListLtB_irrefl s.data

theorem strLtB_eq_of_not {a b : String} (h1 : strLtB a b = false)
    (h2 : strLtB b a = false) : a = b := by
  have hd : a.data = b.data := charListLtB_eq_of_not a.data b.data h1 h2
  rcases a with ⟨as⟩
  rcases b with ⟨bs⟩
  exact congrArg String.mk hd

theorem strLtB_asymm {a b : String} (h : strLtB a b = true) :
    strLtB b a = false := by
  cases hb : strLtB b a
  · rfl
  · have := strLtB_trans h hb
    rw [strLtB_irrefl] at this
    cases this

theorem strLtB_ne {a b : String} (h : strLtB a b = true) : a ≠ b := by
  intro he
  rw [he, strLtB_irrefl] at h
  cases h

theorem pathTimeLt_trans {a b c : IndexEntry}
    (h1 : pathTimeLt a b) (h2 : pathTimeLt b c) : pathTimeLt a c := by
  rcases h1 with h1 | ⟨h1p, h1t⟩ <;> rcases h2 with h2 | ⟨h2p, h2t⟩
  · exact Or.inl (strLtB_trans h1 h2)
  · exact Or.inl (h2p ▸ h1)
  · exact Or.inl (by rw [h1p]; exact h2)
  · exact Or.inr ⟨h1p.trans h2p, lt_trans h1t h2t⟩

theorem insertPredB_true_of (x e : IndexEntry) (hp : insertPredB x e = true)
    (hne : ¬(x.path = e.path ∧ x.time = e.time)) : pathTimeLt e x := by
  unfold insertPredB at hp
  simp only [Bool.or_eq_true, Bool.and_eq_true, decide_eq_true_eq] at hp
  rcases hp with h | ⟨hpeq, hle⟩
  · exact Or.inl h
  · right
    refine ⟨hpeq.symm, ?_⟩
    have hne' : x.time ≠ e.time := fun h => hne ⟨hpeq, h⟩
    omega

theorem insertPredB_false_of (x e : IndexEntry) (hp : insertPredB x e = false) :
    pathTimeLt x e := by
  unfold insertPredB at hp
  simp only [Bool.or_eq_false_iff, Bool.and_eq_false_iff,
    decide_eq_false_iff_not] at hp
  obtain ⟨hnlt, hrest⟩ := hp
  rcases hrest with hne | hnle
  · cases hxe : strLtB x.path e.path
    · exact absurd (strLtB_eq_of_not hxe hnlt) hne
    · exact Or.inl hxe
  · cases hxe : strLtB x.path e.path
    · exact Or.inr ⟨strLtB_eq_of_not hxe hnlt, by omega⟩
    · exact Or.inl hxe

theorem insertSpec_mem {e y : IndexEntry} {cur : List IndexEntry}
    (h : y ∈ insertSpec e cur) : y = e ∨ y ∈ cur := by
  induction cur with
  | nil => simpa [insertSpec] using h
  | cons x xs ih =>
    unfold insertSpec at h
    by_cases hp : insertPredB x e = true
    · rw [if_pos hp] at h
      by_cases hex : x.path = e.path ∧ x.time = e.time
      · rw [if_pos hex] at h
        exact Or.inr h
      · rw [if_neg hex] at h
        rcases List.mem_cons.mp h with rfl | h
        · exact Or.inl rfl
        · exact Or.inr h
    · rw [if_neg hp] at h
      rcases List.mem_cons.mp h with rfl | h
      · exact Or.inr (by simp)
      · rcases ih h with h | h
        · exact Or.inl h
        · exact Or.inr (by simp [h])

theorem insertSpec_length (e : IndexEntry) (cur : List IndexEntry) :
    (insertSpec e cur).length ≤ cur.length + 1 := by
  induction cur with
  | nil => simp [insertSpec]
  | cons x xs ih =>
    unfold insertSpec
    by_cases hp : insertPredB x e = true
    · rw [if_pos hp]
      by_cases hex : x.path = e.path ∧ x.time = e.time
      · rw [if_pos hex]; simp
      · rw [if_neg hex]; simp
    · rw [if_neg hp]
      simp only [List.length_cons]
      omega

theorem insertSpec_valid {e : IndexEntry} {cur : List IndexEntry}
    (hv : ∀ x ∈ cur, validEntry x) (he : validEntry e) :
    ∀ x ∈ insertSpec e cur, validEntry x := by
  intro x hx
  rcases insertSpec_mem hx with rfl | hx
  · exact he
  · exact hv x hx

theorem insertSpec_sorted (e : IndexEntry) (cur : List IndexEntry)
    (hs : cur.Pairwise pathTimeLt) :
    (insertSpec e cur).Pairwise pathTimeLt := by
  induction cur with
  | nil => simp [insertSpec]
  | cons x xs ih =>
    obtain ⟨hx, hs'⟩ := List.pairwise_cons.mp hs
    unfold insertSpec
    by_cases hp : insertPredB x e = true
    · rw [if_pos hp]
      by_cases hex : x.path = e.path ∧ x.time = e.time
      · rw [if_pos hex]; exact hs
      · rw [if_neg hex]
        have hex' : pathTimeLt e x := insertPredB_true_of x e hp hex
        refine List.pairwise_cons.mpr ⟨?_, hs⟩
        intro y hy
        rcases List.mem_cons.mp hy with rfl | hy
        · exact hex'
        · exact pathTimeLt_trans hex' (hx y hy)
    · rw [if_neg hp]
      have hxe : pathTimeLt x e :=
        insertPredB_false_of x e (Bool.not_eq_true _ ▸ hp)
      refine List.pairwise_cons.mpr ⟨?_, ih hs'⟩
      intro y hy
      rcases insertSpec_mem hy with rfl | hy
      · exact hxe
      · exact hx y hy

/-- On a sorted record list containing an exact `(path, time)` match, the
lookup-driven insert is the identity: the first predicate-satisfying
entry is exactly the duplicate. -/
theorem insertSpec_of_mem_exact (e : IndexEntry) (cur : List IndexEntry)
    (hs : cur.Pairwise pathTimeLt)
    (hmem : ∃ x ∈ cur, x.path = e.path ∧ x.time = e.time) :
    insertSpec e cur = cur := by
  induction cur with
  | nil =>
    obtain ⟨x, hx, -⟩ := hmem
    cases hx
  | cons x xs ih =>
    obtain ⟨hx, hs'⟩ := List.pairwise_cons.mp hs
    obtain ⟨y, hy, hyp, hyt⟩ := hmem
    rcases List.mem_cons.mp hy with rfl | hy
    · have hp : insertPredB y e = true := by
        unfold insertPredB
        simp [hyp, hyt]
      simp [insertSpec, hp, hyp, hyt]
    · have hxy : pathTimeLt x y := hx y hy
      have hp : insertPredB x e = false := by
        unfold insertPredB
        rcases hxy with hlt | ⟨heq, hlt⟩
        · have h1 : strLtB e.path x.path = false := by
            rw [← hyp]
            exact strLtB_asymm hlt
          have h2 : ¬ (x.path = e.path) := by
            rw [← hyp]
            exact strLtB_ne hlt
          simp [h1, h2]
        · have h1 : strLtB e.path x.path = false := by
            rw [heq, hyp]
            exact strLtB_irrefl _
          have h2 : ¬ (e.time ≤ x.time) := by
            rw [hyt] at hlt
            omega
          simp [h1, h2]
      rw [insertSpec, if_neg (by simp [hp]), ih hs' ⟨y, hy, hyp, hyt⟩]

theorem annotate_mem_projections {es : List IndexEntry} {pos : Nat}
    {y : IndexEntry} (hy : y ∈ annotate es pos) :
    ∃ z ∈ es, y.path = z.path ∧ y.time = z.time := by
  induction es generalizing pos with
  | nil => cases hy
  | cons e es ih =>
    rcases List.mem_cons.mp hy with rfl | hy
    · exact ⟨e, by simp, rfl, rfl⟩
    · obtain ⟨z, hz, h⟩ := ih hy
      exact ⟨z, by simp [hz], h⟩

theorem annotate_pairwise (es : List IndexEntry) (pos : Nat)
    (h : es.Pairwise pathTimeLt) :
    (annotate es pos).Pairwise pathTimeLt := by
  induction es generalizing pos with
  | nil => simp [annotate]
  | cons e es ih =>
    obtain ⟨he, h'⟩ := List.pairwise_cons.mp h
    refine List.pairwise_cons.mpr ⟨?_, ih _ h'⟩
    intro y hy
    obtain ⟨z, hz, hzp, hzt⟩ := annotate_mem_projections hy
    have hez : pathTimeLt e z := he z hz
    unfold pathTimeLt at hez ⊢
    rw [hzp, hzt]
    exact hez

/-- Folding a list of sentinel-offset inserts over a sorted well-formed
file keeps the file well-formed and its record list sorted. -/
theorem applyInserts_writeList (stor : String → ProfileMeta)
    (es : List IndexEntry) (cur : List IndexEntry)
    (hv : ∀ x ∈ cur, validEntry x) (hs : cur.Pairwise pathTimeLt)
    (hves : ∀ e ∈ es, validEntry e ∧ e.offset = -1)
    (hl : cur.length + es.length < 4294967296) :
    ∃ fin : List IndexEntry,
      applyInserts stor (writeListOfEntries cur) es = .ok (writeListOfEntries fin)
      ∧ fin.Pairwise pathTimeLt ∧ (∀ x ∈ fin, validEntry x)
      ∧ fin.length ≤ cur.length + es.length := by
  induction es generalizing cur with
  | nil => exact ⟨cur, rfl, hs, hv, by omega⟩
  | cons e es ih =>
    obtain ⟨hve, hoe⟩ := hves e (by simp)
    have hstep := writeEntryToIndex_spec stor cur e hv (by simp at hl; omega) hoe
    have hlen := insertSpec_length e cur
    obtain ⟨fin, h1, h2, h3, h4⟩ := ih (insertSpec e cur)
      (insertSpec_valid hv hve) (insertSpec_sorted e cur hs)
      (fun x hx => hves x (by simp [hx]))
      (by simp only [List.length_cons] at hl; omega)
    refine ⟨fin, ?_, h2, h3, ?_⟩
    · simp only [applyInserts, hstep, h1]
    · simp only [List.length_cons]
      omega

/-! ### Bulk removal on well-formed files -/

theorem writeExtended_length_pos (e : IndexEntry) :
    0 < (writeExtended e).length := by
  simp only [writeExtended, writeBasic, List.length_append, u32Bytes_length]
  omega

theorem annotate_offset_lb {es : List IndexEntry} {pos : Nat} :
    ∀ y ∈ annotate es pos, (pos : Int) ≤ y.offset := by
  induction es generalizing pos with
  | nil => intro y hy; cases hy
  | cons e es ih =>
    intro y hy
    rcases List.mem_cons.mp hy with rfl | hy
    · simp
    · have := ih y hy
      have hp := writeExtended_length_pos e
      push_cast at this ⊢
      omega

theorem annotate_offsets_increasing (es : List IndexEntry) (pos : Nat) :
    (annotate es pos).Pairwise (fun a b => a.offset < b.offset) := by
  induction es generalizing pos with
  | nil => simp [annotate]
  | cons e es ih =>
    refine List.pairwise_cons.mpr ⟨?_, ih _⟩
    intro y hy
    have hlb := annotate_offset_lb y hy
    have hp := writeExtended_length_pos e
    simp only
    push_cast at hlb ⊢
    omega

theorem sortByOffset_of_sorted (l : List IndexEntry)
    (h : l.Pairwise (fun a b => a.offset < b.offset)) : sortByOffset l = l := by
  induction l with
  | nil => rfl
  | cons a l ih =>
    obtain ⟨ha, h'⟩ := List.pairwise_cons.mp h
    have hl : sortByOffset l = l := ih h'
    unfold sortByOffset at hl ⊢
    rw [List.foldr_cons, hl]
    cases l with
    | nil => rfl
    | cons b l2 =>
      have hab : a.offset < b.offset := ha b (by simp)
      unfold insertByOffset
      rw [if_neg (by omega)]

theorem mkFileC_take8 (c : Int) (es : List IndexEntry) :
    (mkFileC c es).take 8 = INDEX_MAGIC ++ i32Bytes (INDEX_VERSION : Int) := by
  have h8 : (INDEX_MAGIC ++ i32Bytes (INDEX_VERSION : Int)).length = 8 := by
    simp [List.length_append, i32Bytes_length, INDEX_MAGIC_length]
  have heq : mkFileC c es
      = (INDEX_MAGIC ++ i32Bytes (INDEX_VERSION : Int)) ++ (i32Bytes c ++ encAll es) := by
    simp [mkFileC, List.append_assoc]
  rw [heq, List.take_left' h8]

/-- Characterization of `remove_from_index` on a well-formed version-2
file: each key deregisters only the first walked entry it matches, the
kept entries are re-encoded in order after a header count of
`total - len(removed)`, and the version field is left as it was. -/
theorem removeFromIndex_writeList (stor : String → ProfileMeta)
    (es : List IndexEntry) (keys : List String)
    (hv : ∀ x ∈ es, validEntry x) (hl : es.length < 4294967296)
    (hk : keys ≠ []) :
    removeFromIndex stor (writeListOfEntries es) keys
      = .ok (INDEX_MAGIC ++ i32Bytes (INDEX_VERSION : Int)
          ++ i32Bytes ((es.length : Int)
            - ((removedList (annotate es INDEX_ENTRIES_START_OFFSET) keys).length : Int))
          ++ encAll ((annotate es INDEX_ENTRIES_START_OFFSET).filter
            (fun x => decide (x ∉ removedList (annotate es INDEX_ENTRIES_START_OFFSET) keys)))) := by
  have hk' : ¬ (keys.length = 0) := by
    simpa [List.length_eq_zero] using hk
  have hsort : sortByOffset (annotate es INDEX_ENTRIES_START_OFFSET)
      = annotate es INDEX_ENTRIES_START_OFFSET :=
    sortByOffset_of_sorted _ (annotate_offsets_increasing es _)
  have htake : (writeListOfEntries es).take INDEX_NUMBER_OF_ENTRIES_OFFSET
      = INDEX_MAGIC ++ i32Bytes (INDEX_VERSION : Int) := by
    rw [writeListOfEntries_eq_mkFileC]
    exact mkFileC_take8 _ _
  simp only [removeFromIndex, if_neg hk',
    walkIndex_writeListOfEntries stor es hv hl, hsort, htake, annotate_length,
    List.append_assoc]

/-! ### Concrete entries for witnesses and counterexamples -/

def ckA : String := "aaaaaaaaaaaaaaaaaaaaaaaaaaaaaaaaaaaaaaaa"

def ckB : String := "bbbbbbbbbbbbbbbbbbbbbbbbbbbbbbbbbbbbbbbb"

def eA1 : IndexEntry := ⟨1, ckA, "a", -1, "t", "c", "w", "col", []⟩

def eA2 : IndexEntry := ⟨2, ckB, "a", -1, "t", "c", "w", "col", []⟩

def eB5 : IndexEntry := ⟨5, ckB, "b", -1, "t", "c", "w", "col", []⟩

def eBasicW : IndexEntry := ⟨1, ckA, "p", 12, "??", "??", "??", "??", []⟩

def eExtW : IndexEntry := ⟨2, ckB, "q", 45, "t", "c", "w", "col", ["pp"]⟩

def eV1 : IndexEntry := ⟨1, ckA, "a", 0, "??", "??", "??", "??", []⟩

/-! ### Claim theorems -/

/-- C1: the header/walker count invariant is broken by
`remove_from_index` when the removal collection repeats a key.  On an
index holding one entry of path `"a"`, removing `["a", "a"]` looks the
same entry up twice, so the header count is written as `1 - 2 = -1`
(bytes `ff ff ff ff`, read back as 4294967295) while the body holds no
records and the walker yields 0 entries with a mismatch warning. -/
theorem c1_remove_from_index_breaks_count_invariant :
    removeFromIndex storEx (writeListOfEntries [eA1]) ["a", "a"]
      = .ok (INDEX_MAGIC ++ i32Bytes (INDEX_VERSION : Int) ++ i32Bytes (-1))
    ∧ walkIndex storEx (INDEX_MAGIC ++ i32Bytes (INDEX_VERSION : Int) ++ i32Bytes (-1))
      = .ok ([], true)
    ∧ readU32At (INDEX_MAGIC ++ i32Bytes (INDEX_VERSION : Int) ++ i32Bytes (-1))
        INDEX_NUMBER_OF_ENTRIES_OFFSET = 4294967295 := by
  refine ⟨by decide, by decide, by decide⟩

/-- C2 counterexample: with two records of path `"a"` and the key set
`["a"]`, a record whose path equals the key survives the removal — the
lookup removes only the first match. -/
theorem c2_counterexample :
    ((removeFromIndex storEx (writeListOfEntries [eA1, eA2]) ["a"]).bind
        (fun f => walkIndex storEx f)).map (fun p => p.1.map (fun x => x.path))
      = .ok ["a"] := by
  decide

/-- C2 (amended): `remove_from_index` removes, for each key, only the
first walked record matching it; the file becomes the old header (its
version untouched) with count `total - len(removed)` and the re-encoded
surviving records, and no first-match of any key survives. -/
theorem c2_remove_first_match_only (stor : String → ProfileMeta)
    (es : List IndexEntry) (keys : List String)
    (hv : ∀ x ∈ es, validEntry x) (hl : es.length < 4294967296)
    (hk : keys ≠ []) :
    removeFromIndex stor (writeListOfEntries es) keys
      = .ok (INDEX_MAGIC ++ i32Bytes (INDEX_VERSION : Int)
          ++ i32Bytes ((es.length : Int)
            - ((removedList (annotate es INDEX_ENTRIES_START_OFFSET) keys).length : Int))
          ++ encAll ((annotate es INDEX_ENTRIES_START_OFFSET).filter
            (fun x => decide (x ∉ removedList (annotate es INDEX_ENTRIES_START_OFFSET) keys))))
    ∧ ∀ k ∈ keys, ∀ f,
        (annotate es INDEX_ENTRIES_START_OFFSET).find? (fun x => keyMatches k x) = some f →
        f ∉ (annotate es INDEX_ENTRIES_START_OFFSET).filter
          (fun x => decide (x ∉ removedList (annotate es INDEX_ENTRIES_START_OFFSET) keys)) := by
  refine ⟨removeFromIndex_writeList stor es keys hv hl hk, ?_⟩
  intro k hk' f hf hmem
  have hrem : f ∈ removedList (annotate es INDEX_ENTRIES_START_OFFSET) keys := by
    unfold removedList
    exact List.mem_filterMap.mpr ⟨k, hk', hf⟩
  have hdec := (List.mem_filter.mp hmem).2
  simp only [decide_eq_true_eq] at hdec
  exact hdec hrem

/-- C2 witness: the amended removal characterization evaluated on a
two-entry file and one path key. -/
theorem c2_witness :
    removeFromIndex storEx (writeListOfEntries [eA1, eB5]) ["a"]
      = .ok (INDEX_MAGIC ++ i32Bytes (INDEX_VERSION : Int)
          ++ i32Bytes ((([eA1, eB5] : List IndexEntry).length : Int)
            - ((removedList (annotate [eA1, eB5] INDEX_ENTRIES_START_OFFSET) ["a"]).length : Int))
          ++ encAll ((annotate [eA1, eB5] INDEX_ENTRIES_START_OFFSET).filter
            (fun x => decide (x ∉ removedList (annotate [eA1, eB5] INDEX_ENTRIES_START_OFFSET) ["a"]))))
    ∧ ∀ k ∈ (["a"] : List String), ∀ f,
        (annotate [eA1, eB5] INDEX_ENTRIES_START_OFFSET).find? (fun x => keyMatches k x) = some f →
        f ∉ (annotate [eA1, eB5] INDEX_ENTRIES_START_OFFSET).filter
          (fun x => decide (x ∉ removedList (annotate [eA1, eB5] INDEX_ENTRIES_START_OFFSET) ["a"])) :=
  c2_remove_first_match_only storEx [eA1, eB5] ["a"] (by decide) (by decide) (by decide)

/-- C3: both generations of the entry codec round-trip: decoding the
encoding of a valid entry at its own offset reproduces the entry, the
offset being reconstructed from the decode position. -/
theorem c3_codec_roundtrip (eb ee : IndexEntry) (rb re : List Nat) (ob oe : Nat)
    (hb : validEntry eb) (hbo : eb.offset = (ob : Int))
    (hbd : eb.type = "??" ∧ eb.cmd = "??" ∧ eb.workload = "??"
      ∧ eb.collector = "??" ∧ eb.postprocessors = [])
    (he : validEntry ee) (heo : ee.offset = (oe : Int)) :
    readBasicFrom (writeBasic eb ++ rb) ob = some (eb, rb)
    ∧ readExtendedFrom (writeExtended ee ++ re) oe = some (ee, re) := by
  constructor
  · rw [readBasicFrom_writeBasic eb rb ob hb]
    obtain ⟨h1, h2, h3, h4, h5⟩ := hbd
    rcases eb with ⟨t, c, p, o, ty, cm, w, co, pp⟩
    simp only at h1 h2 h3 h4 h5 hbo
    subst h1 h2 h3 h4 h5 hbo
    rfl
  · rw [readExtendedFrom_writeExtended ee re oe he]
    rcases ee with ⟨t, c, p, o, ty, cm, w, co, pp⟩
    simp only at heo
    subst heo
    rfl

/-- C3 witness: the round-trip at a concrete basic and a concrete
extended entry. -/
theorem c3_witness :
    readBasicFrom (writeBasic eBasicW ++ []) 12 = some (eBasicW, [])
    ∧ readExtendedFrom (writeExtended eExtW ++ [7]) 45 = some (eExtW, [7]) :=
  c3_codec_roundtrip eBasicW eExtW [] [7] 12 45 (by decide) (by decide)
    (by decide) (by decide) (by decide)

/-- C4 counterexample: an insert carrying a pre-computed offset bypasses
the ordering search; inserting `"b"` with the sentinel and then `"a"`
with an explicit end-of-file offset leaves the records in the order
`b, a`, not ordered by `(path, time)` since `"a" < "b"`. -/
theorem c4_counterexample :
    ((applyInserts storEx freshIndex [eB5, { eA1 with offset := 64 }]).bind
        (fun f => walkIndex storEx f)).map
      (fun p => p.1.map (fun x => (x.path, x.time))) = .ok [("b", 5), ("a", 1)]
    ∧ strLtB ("a") ("b") = true := by
  refine ⟨by decide, by decide⟩

/-- C4 (amended): for every sequence of `write_entry_to_index` calls with
valid entries carrying the `-1` offset sentinel, starting from a freshly
initialized index, the final file's walked records are totally ordered by
`(path, time)`, path-major then time ascending. -/
theorem c4_sentinel_inserts_sorted (stor : String → ProfileMeta)
    (es : List IndexEntry)
    (hves : ∀ e ∈ es, validEntry e ∧ e.offset = -1)
    (hl : es.length < 4294967296) :
    ∃ fin ws, applyInserts stor freshIndex es = .ok fin
      ∧ walkIndex stor fin = .ok (ws, false)
      ∧ ws.Pairwise pathTimeLt := by
  have h0 : freshIndex = writeListOfEntries [] := rfl
  obtain ⟨fin, h1, h2, h3, h4⟩ := applyInserts_writeList stor es []
    (by simp) (by simp) hves (by simpa using hl)
  refine ⟨writeListOfEntries fin, annotate fin INDEX_ENTRIES_START_OFFSET,
    by rw [h0]; exact h1, ?_, ?_⟩
  · exact walkIndex_writeListOfEntries stor fin h3 (by simp at h4; omega)
  · exact annotate_pairwise fin _ h2

/-- C4 witness: two sentinel inserts given in descending path order end
up walked in ascending `(path, time)` order. -/
theorem c4_witness :
    ∃ fin ws, applyInserts storEx freshIndex [eB5, eA1] = .ok fin
      ∧ walkIndex storEx fin = .ok (ws, false)
      ∧ ws.Pairwise pathTimeLt :=
  c4_sentinel_inserts_sorted storEx [eB5, eA1] (by decide) (by decide)

/-- C5 counterexample: on an index whose records are not sorted (such a
file is produced by `write_list_of_entries`), inserting an exact
`(path, time)` duplicate of an existing record is not a no-op: the
lookup's first predicate match is a different record, so the file
changes. -/
theorem c5_counterexample :
    (writeEntryToIndex storEx (writeListOfEntries [eB5, eA1]) eA1).toOption ≠ none
    ∧ writeEntryToIndex storEx (writeListOfEntries [eB5, eA1]) eA1
        ≠ .ok (writeListOfEntries [eB5, eA1]) := by
  refine ⟨by decide, by decide⟩

/-- C5 (amended): on a well-formed index whose records are sorted by
`(path, time)` — the invariant sentinel-offset inserts maintain — a
sentinel-offset insert whose `(path, time)` equals that of an existing
record leaves the file byte-identical (a reported no-op, not an
error). -/
theorem c5_duplicate_insert_noop (stor : String → ProfileMeta)
    (cur : List IndexEntry) (e : IndexEntry)
    (hv : ∀ x ∈ cur, validEntry x) (hs : cur.Pairwise pathTimeLt)
    (hl : cur.length < 4294967296) (hoff : e.offset = -1)
    (hmem : ∃ x ∈ cur, x.path = e.path ∧ x.time = e.time) :
    writeEntryToIndex stor (writeListOfEntries cur) e
      = .ok (writeListOfEntries cur) := by
  rw [writeEntryToIndex_spec stor cur e hv hl hoff,
    insertSpec_of_mem_exact e cur hs hmem]

/-- C5 witness: a duplicate-`(path, time)` insert (with a different
checksum) into a sorted two-entry file returns the file unchanged. -/
theorem c5_witness :
    writeEntryToIndex storEx (writeListOfEntries [eA1, eB5])
        { eA1 with checksum := ckB }
      = .ok (writeListOfEntries [eA1, eB5]) :=
  c5_duplicate_insert_noop storEx [eA1, eB5] { eA1 with checksum := ckB }
    (by decide) (by decide) (by decide) (by decide) (by decide)

/-- C6: `remove_from_index` never rewrites the version field.  A
successful removal on a version-1 file leaves the stored format_version
at 1 (while re-encoding the kept records in the current format), contrary
to the upgrade-on-write invariant. -/
theorem c6_remove_keeps_old_version :
    removeFromIndex storEx (mkV1File 1 [eV1]) ["a"]
      = .ok (INDEX_MAGIC ++ i32Bytes 1 ++ i32Bytes 0)
    ∧ ((INDEX_MAGIC ++ i32Bytes 1 ++ i32Bytes 0).drop 4).take 4 = i32Bytes 1
    ∧ i32Bytes 1 ≠ i32Bytes (INDEX_VERSION : Int) := by
  refine ⟨by decide, by decide, by decide⟩

/-- C7 counterexample: a too-new declared version and bad magic bytes
raise the same exception class, `MalformedIndexFileException`,
distinguished only by message — there is no distinct `UnsupportedVersion`
error. -/
theorem c7_counterexample :
    walkIndex storEx (INDEX_MAGIC ++ u32Bytes 3 ++ u32Bytes 0)
      = .error (.malformedIndexFile (versionErrMsg 3))
    ∧ walkIndex storEx [1, 2, 3, 4, 5, 6, 7, 8, 9, 10, 11, 12]
      = .error (.malformedIndexFile ("read blob is not an index file")) := by
  refine ⟨by decide, by decide⟩

/-- C7 (amended): for every file whose declared format version exceeds
the compiled constant, `walk_index` fails — yielding no entries — with a
`MalformedIndexFileException` whose message reports the version mismatch;
the same exception class as for bad magic, not a distinct error type. -/
theorem c7_version_too_new_malformed (stor : String → ProfileMeta)
    (v : Nat) (rest : List Nat) (hgt : INDEX_VERSION < v)
    (hv : v < 4294967296) :
    walkIndex stor (INDEX_MAGIC ++ u32Bytes v ++ rest)
      = .error (.malformedIndexFile (versionErrMsg v)) := by
  have hm : takeBytes 4 (INDEX_MAGIC ++ (u32Bytes v ++ rest))
      = some (INDEX_MAGIC, u32Bytes v ++ rest) := takeBytes_exact INDEX_MAGIC _
  simp only [walkIndex, List.append_assoc, hm, eq_self_iff_true, if_true,
    readU32_u32Bytes v rest hv, if_pos hgt]

/-- C7 witness: the version-mismatch failure at declared version 3. -/
theorem c7_witness :
    walkIndex storEx (INDEX_MAGIC ++ u32Bytes 3 ++ [])
      = .error (.malformedIndexFile (versionErrMsg 3)) :=
  c7_version_too_new_malformed storEx 3 [] (by decide) (by decide)

/-- C8 counterexample: a file with more decodable records (2) than its
declared count (1) yields exactly the declared count of entries and emits
no warning — the mismatch warning fires only when fewer records are
decodable than declared. -/
theorem c8_counterexample :
    (walkIndex storEx (mkIndexFileN 1 [eA1, eA2])).map
      (fun p => (p.1.length, p.2)) = .ok (1, false) := by
  decide

/-- C8 (amended): on a valid-magic, supported-version file whose body
holds the records of `es` under a declared count `n`, the walker yields
exactly `min n (records present)` entries, and emits the non-fatal
mismatch warning exactly when fewer records are decodable than declared
(`es.length < n`); with more records than declared it stops silently at
`n`. -/
theorem c8_walker_count_mismatch (stor : String → ProfileMeta) (n : Nat)
    (es : List IndexEntry) (hv : ∀ e ∈ es, validEntry e)
    (hn : n < 4294967296) :
    walkIndex stor (mkIndexFileN n es)
      = .ok (annotate (es.take n) INDEX_ENTRIES_START_OFFSET,
             decide (es.length < n)) := by
  rw [walkIndex_mkIndexFileN stor n es hv hn]
  have h : ((es.take n).length ≠ n) ↔ (es.length < n) := by
    rw [List.length_take]
    omega
  rw [decide_eq_decide.mpr h]

/-- C8 witness: declared count 3 over 2 records — the walker yields the 2
decodable entries and warns, matching the spec's scenario. -/
theorem c8_witness :
    walkIndex storEx (mkIndexFileN 3 [eA1, eA2])
      = .ok (annotate (([eA1, eA2] : List IndexEntry).take 3) INDEX_ENTRIES_START_OFFSET,
             decide (([eA1, eA2] : List IndexEntry).length < 3)) :=
  c8_walker_count_mismatch storEx 3 [eA1, eA2] (by decide) (by decide)

/-- C9: `load_custom_index` returns the empty mapping whenever the
decompress-and-parse step fails (empty, truncated or corrupt content),
and never propagates the failure. -/
theorem c9_custom_index_resilient {α : Type}
    (decode : List Nat → Except CustomIndexReadError α) (emptyMapping : α)
    (content : List Nat) (err : CustomIndexReadError)
    (h : decode content = .error err) :
    loadCustomIndex decode emptyMapping content = emptyMapping := by
  unfold loadCustomIndex
  rw [h]

/-- C9 witness: a decoder failing with `zlib.error` on empty content
yields the empty mapping. -/
theorem c9_witness :
    loadCustomIndex (fun _ => .error .zlibError) (0 : Nat) [] = 0 :=
  c9_custom_index_resilient (fun _ => .error .zlibError) 0 [] .zlibError rfl

/-- C10: an entry with a nonnegative pre-computed offset is written at
exactly that offset with the header count incremented unconditionally —
no walk, no duplicate check and no ordering search happen, on any file
whatsoever (even one a lookup could not parse). -/
theorem c10_explicit_offset_insert (stor : String → ProfileMeta)
    (file : List Nat) (e : IndexEntry) (h : 0 ≤ e.offset) :
    writeEntryToIndex stor file e
      = .ok (updateIndexVersion
          ((modifyEntryCount file (fun x => (x : Int) + 1)).take e.offset.toNat
            ++ writeExtended e
            ++ (modifyEntryCount file (fun x => (x : Int) + 1)).drop e.offset.toNat)) := by
  unfold writeEntryToIndex finishInsert
  rw [if_neg (by omega)]

/-- C10 witness: the unconditional splice evaluated at offset 12 on a
fresh index. -/
theorem c10_witness :
    writeEntryToIndex storEx freshIndex { eA1 with offset := 12 }
      = .ok (updateIndexVersion
          ((modifyEntryCount freshIndex (fun x => (x : Int) + 1)).take
              ({ eA1 with offset := 12 } : IndexEntry).offset.toNat
            ++ writeExtended { eA1 with offset := 12 }
            ++ (modifyEntryCount freshIndex (fun x => (x : Int) + 1)).drop
              ({ eA1 with offset := 12 } : IndexEntry).offset.toNat)) :=
  c10_explicit_offset_insert storEx freshIndex { eA1 with offset := 12 } (by decide)

end PerunIndex
